import Mathlib

/-!
Verification development for the libtomcrypt ECC signature verifier
(`src/pk/ecc/ecc_verify_hash.c`) and the OpenSSH private-key container
demo (`demos/openssh-privkey.c`).

Byte strings are modelled as `List Nat` (each entry one octet), big
integers as `Nat`, and the external big-integer / elliptic-curve engine
as explicit function parameters.  Fallible C functions returning an
`int` status are modelled with `Except CryptStatus` / `Option`.
-/

/-- Status codes of the library (`CRYPT_OK`, `CRYPT_ERROR`,
`CRYPT_INVALID_PACKET`, `CRYPT_INVALID_ARG`, `CRYPT_BUFFER_OVERFLOW`,
`CRYPT_MEM`). -/
inductive CryptStatus where
  | ok
  | error
  | invalidPacket
  | invalidArg
  | bufferOverflow
  | mem
deriving DecidableEq

/-- ASCII codes of a string literal, used to model C string constants. -/
def ascii (s : String) : List Nat :=
  s.data.map Char.toNat

/-- Big-endian value of a byte string, as read by `mp_read_unsigned_bin`. -/
def beVal : List Nat → Nat
  | [] => 0
  | b :: t => b * 256 ^ t.length + beVal t

/-- The four signature encodings of `ecc_signature_type`. -/
inductive SigFormat where
  | ansiX962
  | rfc7518
  | eth27
  | rfc5656
deriving DecidableEq

/-- Curve domain parameters `key->dp` (order, prime, coefficient A, OID,
base point), with the point type `P` abstract. -/
structure EccCurve (P : Type) where
  order : Nat
  prime : Nat
  A : Nat
  oid : List Nat
  base : P

/-- An ECC public key: domain parameters plus the public point. -/
structure EccKey (P : Type) where
  dp : EccCurve P
  pubkey : P

/-- External decoders used by the ANSI X9.62 and RFC5656 branches
(`der_decode_sequence_multi_ex`, `ssh_decode_sequence_multi`,
`ecc_ssh_ecdsa_encode_name`), modelled as oracle parameters. -/
structure SigDecoders (P : Type) where
  derDecode : List Nat → Except CryptStatus (Nat × Nat)
  sshDecode : List Nat → Except CryptStatus (List Nat × Nat × Nat)
  sshEncodeName : EccKey P → Except CryptStatus (List Nat)

/-- The external elliptic-curve arithmetic engine: `mulAdd u1 G u2 Q`
computes the affine result of `u1*G + u2*Q` (either by two `ecc_ptmul`
plus `ecc_ptadd`/`ecc_map`, or by the fused `ecc_mul2add`), and `xCoord`
reads the affine x coordinate of a point. -/
structure EccEngine (P : Type) where
  mulAdd : Nat → P → Nat → P → Except CryptStatus P
  xCoord : P → Nat

/-- Fuelled step function of the extended Euclidean algorithm,
maintaining `(r, s, t)` and `(r', s', t')` with the Bezout invariant
`s*a + t*n = r`. -/
def xgcdF : Nat → Nat → Nat → Int → Int → Int → Int → Nat × Int × Int
  | 0, r, _, s, _, t, _ => (r, s, t)
  | fuel + 1, r, r', s, s', t, t' =>
    if r' = 0 then (r, s, t)
    else xgcdF fuel r' (r % r') s' (s - (r / r' : Nat) * s') t' (t - (r / r' : Nat) * t')

/-- Modular inverse `mp_invmod`: `some w` with `a * w ≡ 1 (mod n)` when
`a` is invertible modulo `n`, `none` (an error) otherwise. -/
def invmod (a n : Nat) : Option Nat :=
  let g := xgcdF (n + 2) a n 1 0 0 1
  if g.1 = 1 then some ((g.2.1 % (n : Int)).toNat) else none

/-- Fuelled binary length: number of significant bits of `n`. -/
def bitLenAux : Nat → Nat → Nat
  | 0, _ => 0
  | fuel + 1, n => if n = 0 then 0 else bitLenAux fuel (n / 2) + 1

/-- Bit count of a big integer, `mp_count_bits`. -/
def bitLen (n : Nat) : Nat :=
  bitLenAux n n

/-- Byte count of the curve order, `mp_unsigned_bin_size(key->dp.order)`. -/
def orderBytes (n : Nat) : Nat :=
  (bitLen n + 7) / 8

/-- One pass of the digest right-shift loop: carry byte `ch`, then for
each input byte emit `ch ^ (b >> k)` and carry `(b << (8-k)) & 0xFF`. -/
def shiftBytesAux (k : Nat) : Nat → List Nat → List Nat
  | _, [] => []
  | ch, b :: t => (ch ^^^ (b >>> k)) :: shiftBytesAux k ((b <<< (8 - k)) % 256) t

/-- Digest reduction of `ecc_verify_hash_ex` (lines 129-146): read the
hash unmodified when the order has more bits, truncate to whole bytes
when the order's bit count is a multiple of 8, and otherwise right-shift
the leading `ceil(pbits/8)` bytes by `8 - pbits % 8` bits. -/
def hashReduce (hash : List Nat) (n : Nat) : Nat :=
  let pbits := bitLen n
  let pbytes := (pbits + 7) / 8
  if pbits > hash.length * 8 then
    beVal hash
  else if pbits % 8 = 0 then
    beVal (hash.take pbytes)
  else
    beVal (shiftBytesAux (8 - pbits % 8) 0 (hash.take pbytes))

/-- OID of secp256k1, `1.3.132.0.10`. -/
def secp256k1Oid : List Nat := [1, 3, 132, 0, 10]

/-- Signature decoding step of `ecc_verify_hash_ex` (lines 64-120),
branching on the format selector and producing the pair `(r, s)`. -/
def decodeRS {P : Type} (dec : SigDecoders P) (key : EccKey P)
    (fmt : SigFormat) (sig : List Nat) : Except CryptStatus (Nat × Nat) :=
  match fmt with
  | .ansiX962 => dec.derDecode sig
  | .rfc7518 =>
    let i := orderBytes key.dp.order
    if sig.length ≠ 2 * i then .error .invalidPacket
    else .ok (beVal (sig.take i), beVal ((sig.drop i).take i))
  | .eth27 =>
    if key.dp.oid ≠ secp256k1Oid then .error .error
    else if sig.length ≠ 65 then .error .invalidPacket
    else .ok (beVal (sig.take 32), beVal ((sig.drop 32).take 32))
  | .rfc5656 =>
    match dec.sshDecode sig with
    | .error e => .error e
    | .ok (name, r, s) =>
      match dec.sshEncodeName key with
      | .error e => .error e
      | .ok name2 => if name ≠ name2 then .error .invalidArg else .ok (r, s)

/-- Claim-side reading of the `Eth27VRS` decoding: r and s taken as the
two 32-byte fields that FOLLOW a leading recovery-id byte.  Stated from
the spec's words for comparison with `decodeRS`. -/
def eth27DecodeClaim {P : Type} (key : EccKey P) (sig : List Nat) :
    Except CryptStatus (Nat × Nat) :=
  if key.dp.oid ≠ secp256k1Oid then .error .error
  else if sig.length ≠ 65 then .error .invalidPacket
  else .ok (beVal ((sig.drop 1).take 32), beVal ((sig.drop 33).take 32))

/-- Shallow embedding of `ecc_verify_hash_ex`: result is the returned
status together with the validity flag `*stat` on exit. -/
def ecc_verify_hash_ex {P : Type} (dec : SigDecoders P) (eng : EccEngine P)
    (sig hash : List Nat) (fmt : SigFormat) (key : EccKey P) :
    CryptStatus × Bool :=
  let n := key.dp.order
  match decodeRS dec key fmt sig with
  | .error e => (e, false)
  | .ok (r, s) =>
    if 0 < r ∧ 0 < s ∧ r < n ∧ s < n then
      match invmod s n with
      | none => (.error, false)
      | some w =>
        let e := hashReduce hash n
        let u1 := e * w % n
        let u2 := r * w % n
        match eng.mulAdd u1 key.dp.base u2 key.pubkey with
        | .error er => (er, false)
        | .ok R => (.ok, decide (eng.xCoord R % n = r))
    else
      (.invalidPacket, false)

/-! ### OpenSSH private-key container demo -/

/-- Big-endian 32-bit field decoder.  Modelled from the spec: the
external Binary Field Decoder's `FixedUint32` field
(`ssh_decode_sequence_multi` with `LTC_SSHDATA_UINT32`). -/
def decodeU32 : List Nat → Option (Nat × List Nat)
  | a :: b :: c :: d :: rest => some (((a * 256 + b) * 256 + c) * 256 + d, rest)
  | _ => none

/-- Length-prefixed opaque-string field decoder with a destination
buffer bound.  Modelled from the spec: the external Binary Field
Decoder's `OpaqueString(max_len)` field, which fails on truncation or
when the payload exceeds the destination buffer. -/
def decodeStr (maxLen : Nat) (l : List Nat) : Option (List Nat × List Nat) :=
  match decodeU32 l with
  | none => none
  | some (len, rest) =>
    if len ≤ maxLen ∧ len ≤ rest.length then some (rest.take len, rest.drop len)
    else none

/-- Length-prefixed big-integer field decoder.  Modelled from the spec:
the external Binary Field Decoder's `BigInteger` field
(`LTC_SSHDATA_MPINT`), read big-endian. -/
def decodeMpint (l : List Nat) : Option (Nat × List Nat) :=
  match decodeU32 l with
  | none => none
  | some (len, rest) =>
    if len ≤ rest.length then some (beVal (rest.take len), rest.drop len)
    else none

/-- RSA private key fields as populated by `ssh_decode_rsa`. -/
structure RsaKey where
  N : Nat
  e : Nat
  d : Nat
  qP : Nat
  q : Nat
  p : Nat
  dP : Nat
  dQ : Nat
deriving DecidableEq

/-- Embedding of `ssh_decode_rsa` (demos/openssh-privkey.c lines
196-228): six big-integer fields in order N, e, d, qP, q, p, then the
CRT exponents are derived.  Returns the key and the unconsumed bytes. -/
def ssh_decode_rsa (l : List Nat) : Option (RsaKey × List Nat) := do
  let (vN, r1) ← decodeMpint l
  let (ve, r2) ← decodeMpint r1
  let (vd, r3) ← decodeMpint r2
  let (vqP, r4) ← decodeMpint r3
  let (vq, r5) ← decodeMpint r4
  let (vp, r6) ← decodeMpint r5
  pure (⟨vN, ve, vd, vqP, vq, vp, vd % (vp - 1), vd % (vq - 1)⟩, r6)

/-- Block cipher modes of the demo's `enum blockcipher_mode`. -/
inductive BlockcipherMode where
  | none
  | cbc
  | ctr
  | stream
  | gcm
deriving DecidableEq

/-- One row of the demo's `ssh_ciphers` table. -/
structure SshCipher where
  name : List Nat
  algo : List Nat
  len : Nat
  mode : BlockcipherMode
deriving DecidableEq

/-- The `ssh_ciphers` registry of the demo: `none` and `aes256-cbc`. -/
def ssh_ciphers : List SshCipher :=
  [⟨ascii "none", ascii "", 0, .none⟩,
   ⟨ascii "aes256-cbc", ascii "aes", 256 / 8, .cbc⟩]

/-- The demo's `struct kdf_options` (password fields omitted: they are
set independently of the header). -/
structure KdfOptions where
  name : List Nat
  cipher : SshCipher
  salt : List Nat
  num_rounds : Nat
deriving DecidableEq

/-- Embedding of `ssh_decode_header` (demos/openssh-privkey.c lines
340-399): magic marker at offset zero, then cipher name, KDF name, KDF
options record, 32-bit key count (must be 1) and one public key blob;
the cipher is resolved against `ssh_ciphers` and the KDF name must be
`none` or `bcrypt` (the latter with a salt and round count filling the
whole nested record). -/
def ssh_decode_header (l : List Nat) : Option KdfOptions := do
  let magic := ascii "openssh-key-v1"
  if l.take 14 ≠ magic then none else
  let start := l.drop 15
  let (ciphername, r1) ← decodeStr 64 start
  let (kdfname, r2) ← decodeStr 64 r1
  let (kdfoptions, r3) ← decodeStr 128 r2
  let (num_keys, r4) ← decodeU32 r3
  let (_pubkey1, _r5) ← decodeStr 2048 r4
  if num_keys ≠ 1 then none else
  let cipher ← ssh_ciphers.find? (fun c => c.name = ciphername)
  if kdfname = ascii "none" then
    pure ⟨ascii "none", cipher, [], 0⟩
  else if kdfname = ascii "bcrypt" then do
    let (salt, rr) ← decodeStr 64 kdfoptions
    let (rounds, rr2) ← decodeU32 rr
    if rr2 ≠ [] then none
    else pure ⟨ascii "bcrypt", cipher, salt, rounds⟩
  else none

/-- The decryption-skip decision of `main` (demos/openssh-privkey.c
lines 493-498): `ssh_decrypt_private_keys` is invoked unless
`XSTRCMP(opts.name, "none")` is zero. -/
def main_skips (o : KdfOptions) : Bool :=
  o.name = ascii "none"

/-- The symmetric decryption stage as sequenced by `main`: the payload
is passed unchanged when the skip decision holds, and otherwise handed
to the (externally modelled) in-place decryptor `dec`. -/
def decrypt_stage (dec : List Nat → List Nat) (o : KdfOptions)
    (payload : List Nat) : List Nat :=
  if main_skips o then payload else dec payload

/-- Embedding of `check_padding` with explicit running pad byte (an
`unsigned char`, so it wraps modulo 256): every byte must equal the pad
counter, which starts at 1. -/
def checkPaddingFrom (pad : Nat) : List Nat → Bool
  | [] => true
  | b :: t => b == pad && checkPaddingFrom ((pad + 1) % 256) t

/-- Embedding of the demo's `check_padding` entry (lines 83-92). -/
def check_padding (l : List Nat) : Bool :=
  checkPaddingFrom 1 l

/-! ### Helper lemmas -/

/-- Adding a value below `2 ^ m` to a multiple of `2 ^ m` coincides with
bitwise xor: the summands occupy disjoint bit ranges. -/
theorem two_pow_mul_xor (m c a : Nat) (ha : a < 2 ^ m) :
    (2 ^ m * c) ^^^ a = 2 ^ m * c + a := by
  apply Nat.eq_of_testBit_eq
  intro i
  have hmain := Nat.testBit_mul_pow_two_add c ha i
  have hzero : Nat.testBit (2 ^ m * c) i
      = if i < m then false else Nat.testBit c (i - m) := by
    have h0 := Nat.testBit_mul_pow_two_add c (Nat.two_pow_pos m) i
    simpa using h0
  rw [Nat.testBit_xor, hmain, hzero]
  by_cases h : i < m
  · simp [h]
  · have ha' : Nat.testBit a i = false :=
      Nat.testBit_lt_two_pow
        (lt_of_lt_of_le ha (Nat.pow_le_pow_right (by norm_num) (Nat.le_of_not_lt h)))
    simp [h, ha']

/-- The xor in the digest shift loop is a plain addition: the carry byte
only holds bits in positions `8-k` and above, the shifted byte only bits
below `8-k`. -/
theorem xor_carry_step (k c b : Nat) (hk8 : k ≤ 8) (hcm : c % 2 ^ (8 - k) = 0)
    (hb : b < 256) : c ^^^ (b >>> k) = c + b / 2 ^ k := by
  obtain ⟨c2, hc2⟩ := Nat.dvd_of_mod_eq_zero hcm
  have hlt : b / 2 ^ k < 2 ^ (8 - k) := by
    rw [Nat.div_lt_iff_lt_mul (Nat.two_pow_pos k)]
    have h8 : 2 ^ (8 - k) * 2 ^ k = 256 := by
      rw [← pow_add]
      have he : 8 - k + k = 8 := by omega
      rw [he]; norm_num
    omega
  rw [Nat.shiftRight_eq_div_pow, hc2, two_pow_mul_xor _ _ _ hlt]

/-- The new carry byte `(b << (8-k)) & 0xFF` is the low `k` bits of `b`
moved to the top of the byte. -/
theorem shiftLeft_mod_256 (k b : Nat) (hk : k ≤ 8) :
    (b <<< (8 - k)) % 256 = b % 2 ^ k * 2 ^ (8 - k) := by
  rw [Nat.shiftLeft_eq]
  have h256 : (256 : Nat) = 2 ^ k * 2 ^ (8 - k) := by
    rw [← pow_add]
    have he : k + (8 - k) = 8 := by omega
    rw [he]; norm_num
  rw [h256, Nat.mul_mod_mul_right]

/-- The shift loop emits one output byte per input byte. -/
theorem shiftBytesAux_length (k : Nat) :
    ∀ (l : List Nat) (c : Nat), (shiftBytesAux k c l).length = l.length := by
  intro l
  induction l with
  | nil => intro c; rfl
  | cons b t ih => intro c; simp [shiftBytesAux, ih]

/-- Arithmetic core of the shift-loop correctness: splitting a byte `b`
into its high and low `k` bits and redistributing matches dividing the
concatenated value by `2 ^ k`. -/
theorem shift_redistribute (k L b X : Nat) (hk : k ≤ 8) (hL : 1 ≤ L) :
    b / 2 ^ k * 256 ^ L + b % 2 ^ k * 2 ^ (8 - k) * 256 ^ (L - 1) + X / 2 ^ k
      = (b * 256 ^ L + X) / 2 ^ k := by
  have h256 : ∀ M : Nat, (256 : Nat) ^ M = 2 ^ (8 * M) := by
    intro M
    rw [show (256 : Nat) = 2 ^ 8 by norm_num, ← pow_mul]
  rw [h256 L, h256 (L - 1)]
  have h1 : 2 ^ (8 - k) * 2 ^ (8 * (L - 1)) = 2 ^ (8 * L - k) := by
    rw [← pow_add]
    have he : 8 - k + 8 * (L - 1) = 8 * L - k := by omega
    rw [he]
  have h2 : 2 ^ (8 * L) = 2 ^ (8 * L - k) * 2 ^ k := by
    rw [← pow_add]
    have he : 8 * L - k + k = 8 * L := by omega
    rw [he]
  rw [mul_assoc, h1, h2]
  have h3 : b * (2 ^ (8 * L - k) * 2 ^ k) + X = X + b * 2 ^ (8 * L - k) * 2 ^ k := by
    ring
  rw [h3, Nat.add_mul_div_right _ _ (Nat.two_pow_pos k)]
  have h4 : b / 2 ^ k * (2 ^ (8 * L - k) * 2 ^ k) + b % 2 ^ k * 2 ^ (8 * L - k)
      = b * 2 ^ (8 * L - k) := by
    have hdm := Nat.div_add_mod b (2 ^ k)
    calc b / 2 ^ k * (2 ^ (8 * L - k) * 2 ^ k) + b % 2 ^ k * 2 ^ (8 * L - k)
        = (2 ^ k * (b / 2 ^ k) + b % 2 ^ k) * 2 ^ (8 * L - k) := by ring
      _ = b * 2 ^ (8 * L - k) := by rw [hdm]
  omega

/-- Correctness of the digest shift loop: with a carry `c` whose bits
live above position `8-k`, the emitted bytes read big-endian are the
carry followed by the input value shifted right by `k` bits. -/
theorem beVal_shiftBytesAux (k : Nat) (hk8 : k < 8) :
    ∀ (t : List Nat) (b c : Nat), b < 256 → (∀ x ∈ t, x < 256) → c < 256 →
      c % 2 ^ (8 - k) = 0 →
      beVal (shiftBytesAux k c (b :: t)) = c * 256 ^ t.length + beVal (b :: t) / 2 ^ k := by
  intro t
  induction t with
  | nil =>
    intro b c hb _ _ hcm
    simp only [shiftBytesAux, beVal, List.length_nil, pow_zero, mul_one,
      Nat.add_zero, Nat.mul_zero, Nat.zero_add]
    rw [xor_carry_step k c b (le_of_lt hk8) hcm hb]
  | cons b2 t' ih =>
    intro b c hb ht hc hcm
    have hb2 : b2 < 256 := ht b2 (by simp)
    have ht' : ∀ x ∈ t', x < 256 := fun x hx => ht x (by simp [hx])
    have hcarry_lt : (b <<< (8 - k)) % 256 < 256 := Nat.mod_lt _ (by norm_num)
    have hcarry_mod : ((b <<< (8 - k)) % 256) % 2 ^ (8 - k) = 0 := by
      rw [shiftLeft_mod_256 k b (le_of_lt hk8), Nat.mul_mod_left]
    have hlen : (shiftBytesAux k ((b <<< (8 - k)) % 256) (b2 :: t')).length
        = t'.length + 1 := by
      rw [shiftBytesAux_length]; rfl
    have hunfold : beVal (shiftBytesAux k c (b :: b2 :: t'))
        = (c ^^^ b >>> k)
            * 256 ^ (shiftBytesAux k ((b <<< (8 - k)) % 256) (b2 :: t')).length
          + beVal (shiftBytesAux k ((b <<< (8 - k)) % 256) (b2 :: t')) := rfl
    rw [hunfold, hlen, ih b2 ((b <<< (8 - k)) % 256) hb2 ht' hcarry_lt hcarry_mod]
    rw [xor_carry_step k c b (le_of_lt hk8) hcm hb]
    rw [shiftLeft_mod_256 k b (le_of_lt hk8)]
    have hbv : beVal (b :: b2 :: t') = b * 256 ^ (t'.length + 1) + beVal (b2 :: t') := rfl
    have hlen2 : (b2 :: t').length = t'.length + 1 := rfl
    rw [hbv, hlen2, add_mul]
    have hgoal := shift_redistribute k (t'.length + 1) b (beVal (b2 :: t'))
      (le_of_lt hk8) (by omega)
    simp only [Nat.add_sub_cancel] at hgoal
    omega

/-- The fuelled extended Euclid preserves the Bezout identity of its
accumulators. -/
theorem xgcdF_bezout (a n : Nat) :
    ∀ (fuel r r' : Nat) (s s' t t' : Int),
      s * a + t * n = r → s' * a + t' * n = r' →
      (xgcdF fuel r r' s s' t t').2.1 * a + (xgcdF fuel r r' s s' t t').2.2 * n
        = (xgcdF fuel r r' s s' t t').1 := by
  intro fuel
  induction fuel with
  | zero =>
    intro r r' s s' t t' h1 _
    simpa [xgcdF] using h1
  | succ f ih =>
    intro r r' s s' t t' h1 h2
    by_cases hr : r' = 0
    · simpa [xgcdF, hr] using h1
    · simp only [xgcdF, if_neg hr]
      apply ih
      · exact h2
      · have hdmZ : (r' : Int) * ((r / r' : Nat) : Int) + ((r % r' : Nat) : Int) = (r : Int) := by
          exact_mod_cast Nat.div_add_mod r r'
        have hcast : ((r % r' : Nat) : Int) = (r : Int) - (r / r' : Nat) * (r' : Int) := by
          linarith [hdmZ]
        calc (s - (r / r' : Nat) * s') * a + (t - (r / r' : Nat) * t') * n
            = (s * a + t * n) - (r / r' : Nat) * (s' * a + t' * n) := by ring
          _ = (r : Int) - (r / r' : Nat) * (r' : Int) := by rw [h1, h2]
          _ = ((r % r' : Nat) : Int) := hcast.symm

/-- What `invmod` returns really is a modular inverse. -/
theorem invmod_eq (a n w : Nat) (hw : invmod a n = some w) (hn : 1 < n) :
    a * w % n = 1 ∧ w < n := by
  have hbez0 := xgcdF_bezout a n (n + 2) a n 1 0 0 1
    (by ring) (by ring)
  unfold invmod at hw
  set g := xgcdF (n + 2) a n 1 0 0 1 with hg
  by_cases h1 : g.1 = 1
  · rw [if_pos h1] at hw
    have hwv : (g.2.1 % (n : Int)).toNat = w := Option.some.inj hw
    have hbez : g.2.1 * a + g.2.2 * n = 1 := by
      rw [hbez0, h1]; norm_num
    set A := g.2.1
    set B := g.2.2
    have hn0 : (0 : Int) < (n : Int) := by exact_mod_cast Nat.lt_of_lt_of_le Nat.zero_lt_one (le_of_lt hn)
    have hnonneg : 0 ≤ A % (n : Int) := Int.emod_nonneg A (by omega)
    have hmodlt : A % (n : Int) < (n : Int) := Int.emod_lt_of_pos A hn0
    have hwInt : (w : Int) = A % (n : Int) := by
      rw [← hwv]
      exact Int.toNat_of_nonneg hnonneg
    constructor
    · have key : ((a : Int) * (w : Int)) % (n : Int) = 1 := by
        rw [hwInt]
        calc (a : Int) * (A % n) % n
            = (a : Int) % n * (A % n % n) % n := by rw [Int.mul_emod]
          _ = (a : Int) % n * (A % n) % n := by rw [Int.emod_emod_of_dvd _ dvd_rfl]
          _ = (a : Int) * A % n := by rw [← Int.mul_emod]
          _ = (1 - B * n) % n := by
              rw [show (a : Int) * A = 1 - B * (n : Int) by linarith [hbez]]
          _ = 1 % n := by
              have hself : (1 - B * (n : Int) + B * n) % n = (1 - B * (n : Int)) % n :=
                Int.add_mul_emod_self
              rw [← hself]; norm_num
          _ = 1 := Int.emod_eq_of_lt (by norm_num) (by exact_mod_cast hn)
      exact_mod_cast key
    · exact_mod_cast hwInt ▸ hmodlt
  · rw [if_neg h1] at hw
    exact absurd hw (by simp)

/-- Bytes taken from a byte string are bytes. -/
theorem bytes_of_take {l : List Nat} (h : ∀ b ∈ l, b < 256) (m : Nat) :
    ∀ b ∈ l.take m, b < 256 :=
  fun b hb => h b (List.take_subset m l hb)

/-! ### Claim theorems -/

/-- C4: with `pbits` the curve order's bit count, the reduced digest is
the raw digest when `pbits` exceeds the digest's bit count; the first
`pbits/8` digest bytes when `pbits` is a multiple of 8; and otherwise
the first `ceil(pbits/8)` digest bytes right-shifted, as one bit string,
by `8 - pbits % 8` bit positions. -/
theorem hashReduce_rule (hash : List Nat) (n : Nat) (hbytes : ∀ b ∈ hash, b < 256) :
    (bitLen n > hash.length * 8 → hashReduce hash n = beVal hash) ∧
    (bitLen n ≤ hash.length * 8 → bitLen n % 8 = 0 →
      hashReduce hash n = beVal (hash.take (bitLen n / 8))) ∧
    (bitLen n ≤ hash.length * 8 → bitLen n % 8 ≠ 0 →
      hashReduce hash n
        = beVal (hash.take ((bitLen n + 7) / 8)) / 2 ^ (8 - bitLen n % 8)) := by
  refine ⟨?_, ?_, ?_⟩
  · intro hgt
    rw [hashReduce, if_pos hgt]
  · intro hle hmod
    rw [hashReduce, if_neg (by omega), if_pos hmod]
    have hdiv : (bitLen n + 7) / 8 = bitLen n / 8 := by omega
    rw [hdiv]
  · intro hle hmod
    rw [hashReduce, if_neg (by omega), if_neg hmod]
    set pbits := bitLen n with hpb
    set k := 8 - pbits % 8 with hk
    set pbytes := (pbits + 7) / 8 with hpbytes
    have hk8 : k < 8 := by omega
    have hpbytes1 : 1 ≤ pbytes := by omega
    have hpblen : pbytes ≤ hash.length := by omega
    have htlen : (hash.take pbytes).length = pbytes := by
      rw [List.length_take]
      omega
    have hne : hash.take pbytes ≠ [] := by
      intro hcon
      rw [hcon] at htlen
      simp at htlen
      omega
    obtain ⟨b, t, hbt⟩ := List.exists_cons_of_ne_nil hne
    rw [hbt]
    have hbts : ∀ x ∈ b :: t, x < 256 := by
      rw [← hbt]
      exact bytes_of_take hbytes pbytes
    rw [beVal_shiftBytesAux k hk8 t b 0 (hbts b (by simp))
      (fun x hx => hbts x (by simp [hx])) (by norm_num) (by simp)]
    simp

/-- C1: once an `(r, s)` pair has been decoded in some supported format
and has passed the range check, the function computes `w` with
`s * w ≡ 1 (mod n)`, the scalars `u1 = e*w mod n` and `u2 = r*w mod n`
with `e` the reduced digest, asks the engine for `R = u1*G + u2*Q`, and
the validity flag is 1 exactly when `R.x mod n = r` — for every engine,
so no other condition influences the flag. -/
theorem ecc_verify_equation {P : Type} (dec : SigDecoders P) (eng : EccEngine P)
    (sig hash : List Nat) (fmt : SigFormat) (key : EccKey P) (r s w : Nat) (R : P)
    (hdec : decodeRS dec key fmt sig = .ok (r, s))
    (hr0 : 0 < r) (hs0 : 0 < s) (hrn : r < key.dp.order) (hsn : s < key.dp.order)
    (hw : invmod s key.dp.order = some w)
    (hR : eng.mulAdd (hashReduce hash key.dp.order * w % key.dp.order) key.dp.base
        (r * w % key.dp.order) key.pubkey = .ok R) :
    s * w % key.dp.order = 1 ∧ w < key.dp.order ∧
    ecc_verify_hash_ex dec eng sig hash fmt key
      = (CryptStatus.ok, decide (eng.xCoord R % key.dp.order = r)) := by
  have hn1 : 1 < key.dp.order := by omega
  obtain ⟨hw1, hw2⟩ := invmod_eq s key.dp.order w hw hn1
  refine ⟨hw1, hw2, ?_⟩
  unfold ecc_verify_hash_ex
  rw [hdec]
  simp only [if_pos (show 0 < r ∧ 0 < s ∧ r < key.dp.order ∧ s < key.dp.order from
    ⟨hr0, hs0, hrn, hsn⟩)]
  rw [hw]
  simp only [hR]

/-- C3: a syntactically valid signature whose mathematical check fails
yields the success status `CRYPT_OK` with validity flag 0 — "not valid"
is a normal result, not an error. -/
theorem ecc_verify_invalid_is_ok {P : Type} (dec : SigDecoders P) (eng : EccEngine P)
    (sig hash : List Nat) (fmt : SigFormat) (key : EccKey P) (r s w : Nat) (R : P)
    (hdec : decodeRS dec key fmt sig = .ok (r, s))
    (hr0 : 0 < r) (hs0 : 0 < s) (hrn : r < key.dp.order) (hsn : s < key.dp.order)
    (hw : invmod s key.dp.order = some w)
    (hR : eng.mulAdd (hashReduce hash key.dp.order * w % key.dp.order) key.dp.base
        (r * w % key.dp.order) key.pubkey = .ok R)
    (hfail : eng.xCoord R % key.dp.order ≠ r) :
    ecc_verify_hash_ex dec eng sig hash fmt key = (CryptStatus.ok, false) := by
  unfold ecc_verify_hash_ex
  rw [hdec]
  simp only [if_pos (show 0 < r ∧ 0 < s ∧ r < key.dp.order ∧ s < key.dp.order from
    ⟨hr0, hs0, hrn, hsn⟩)]
  rw [hw]
  simp only [hR]
  simp [hfail]

/-- C7: a decoded `(r, s)` pair violating `0 < r < n` or `0 < s < n` is
rejected with the error `CRYPT_INVALID_PACKET` (validity flag 0), and
this happens for every arithmetic engine — before any verification
arithmetic can contribute. -/
theorem ecc_verify_range_check {P : Type} (dec : SigDecoders P)
    (sig hash : List Nat) (fmt : SigFormat) (key : EccKey P) (r s : Nat)
    (hdec : decodeRS dec key fmt sig = .ok (r, s))
    (hbad : ¬(0 < r ∧ 0 < s ∧ r < key.dp.order ∧ s < key.dp.order)) :
    ∀ eng : EccEngine P,
      ecc_verify_hash_ex dec eng sig hash fmt key = (CryptStatus.invalidPacket, false) := by
  intro eng
  unfold ecc_verify_hash_ex
  rw [hdec]
  simp only [if_neg hbad]

/-- C10: the validity flag is initialized to 0 and set to 1 only at the
final comparison, which also makes the status `CRYPT_OK`: whenever the
flag is 1 on exit the status is `CRYPT_OK`, so the function never
reports a valid signature together with an error code. -/
theorem ecc_verify_flag_implies_ok {P : Type} (dec : SigDecoders P) (eng : EccEngine P)
    (sig hash : List Nat) (fmt : SigFormat) (key : EccKey P) :
    (ecc_verify_hash_ex dec eng sig hash fmt key).2 = true →
    (ecc_verify_hash_ex dec eng sig hash fmt key).1 = CryptStatus.ok := by
  unfold ecc_verify_hash_ex
  cases hdec : decodeRS dec key fmt sig with
  | error e => simp
  | ok rs =>
    obtain ⟨r, s⟩ := rs
    by_cases hrange : 0 < r ∧ 0 < s ∧ r < key.dp.order ∧ s < key.dp.order
    · simp only [if_pos hrange]
      cases hw : invmod s key.dp.order with
      | none => simp
      | some w =>
        cases hR : eng.mulAdd (hashReduce hash key.dp.order * w % key.dp.order)
            key.dp.base (r * w % key.dp.order) key.pubkey with
        | error er => simp only [hR]; simp
        | ok R => simp only [hR]; simp
    · simp only [if_neg hrange]
      simp

/-- Concrete decoder oracle used for witnesses (the oracle branches are
never taken in the eth27 / rfc7518 formats). -/
def unitDecoders : SigDecoders Unit :=
  ⟨fun _ => .error .error, fun _ => .error .error, fun _ => .error .error⟩

/-- Witness engine whose point has x coordinate 1. -/
def unitEngine1 : EccEngine Unit :=
  ⟨fun _ _ _ _ => .ok (), fun _ => 1⟩

/-- Witness engine whose point has x coordinate 2. -/
def unitEngine2 : EccEngine Unit :=
  ⟨fun _ _ _ _ => .ok (), fun _ => 2⟩

/-- A tiny secp256k1-tagged key with curve order 5, for witnesses. -/
def tinyKey : EccKey Unit :=
  ⟨⟨5, 7, 0, secp256k1Oid, ()⟩, ()⟩

/-- A key carrying a non-secp256k1 OID (prime256v1), for witnesses. -/
def p256Key : EccKey Unit :=
  ⟨⟨5, 7, 0, [1, 2, 840, 10045, 3, 1, 7], ()⟩, ()⟩

/-- A 65-byte witness signature: r in the first 32 bytes, s in the next
32 bytes, recovery byte 27 at the end. -/
def sigRS (r s : Nat) : List Nat :=
  List.replicate 31 0 ++ [r] ++ List.replicate 31 0 ++ [s] ++ [27]

/-- C2 (amended): in the Eth27VRS format a non-secp256k1 OID is a curve
mismatch error, a length other than 65 is an invalid-packet error, and
otherwise r is the FIRST 32-byte big-endian field, s the second, while
the TRAILING recovery-id byte is accepted but never used. -/
theorem eth27_decode_rule {P : Type} (dec : SigDecoders P) (key : EccKey P)
    (sig : List Nat) :
    (key.dp.oid ≠ secp256k1Oid →
      decodeRS dec key .eth27 sig = .error .error) ∧
    (key.dp.oid = secp256k1Oid → sig.length ≠ 65 →
      decodeRS dec key .eth27 sig = .error .invalidPacket) ∧
    (key.dp.oid = secp256k1Oid → sig.length = 65 →
      decodeRS dec key .eth27 sig
        = .ok (beVal (sig.take 32), beVal ((sig.drop 32).take 32))) ∧
    (∀ pre : List Nat, ∀ b b' : Nat, pre.length = 64 →
      decodeRS dec key .eth27 (pre ++ [b]) = decodeRS dec key .eth27 (pre ++ [b'])) := by
  refine ⟨?_, ?_, ?_, ?_⟩
  · intro hoid
    simp [decodeRS, hoid]
  · intro hoid hlen
    simp [decodeRS, hoid, hlen]
  · intro hoid hlen
    simp [decodeRS, hoid, hlen]
  · intro pre b b' hpre
    have hlen1 : (pre ++ [b]).length = 65 := by simp [hpre]
    have hlen2 : (pre ++ [b']).length = 65 := by simp [hpre]
    have htake : ∀ c : Nat, (pre ++ [c]).take 32 = pre.take 32 := by
      intro c
      exact List.take_append_of_le_length (by omega)
    have hdrop : ∀ c : Nat, ((pre ++ [c]).drop 32).take 32 = (pre.drop 32).take 32 := by
      intro c
      rw [List.drop_append_of_le_length (by omega)]
      have hl : (pre.drop 32).length = 32 := by simp [hpre]
      rw [List.take_append_of_le_length (by omega)]
    by_cases hoid : key.dp.oid = secp256k1Oid
    · simp [decodeRS, hoid, hlen1, hlen2, htake, hdrop]
    · simp [decodeRS, hoid]

/-- C2 counterexample: for the 65-byte signature `01 00...00`, the code
takes r from the first 32 bytes (yielding `2^248`), while the claim's
reading (r in the 32 bytes after a leading recovery byte) yields 0: the
recovery-id byte is trailing, not leading. -/
theorem eth27_leading_byte_counterexample :
    decodeRS unitDecoders tinyKey .eth27 ([1] ++ List.replicate 64 0)
      = .ok (2 ^ 248, 0) ∧
    eth27DecodeClaim tinyKey ([1] ++ List.replicate 64 0) = .ok (0, 0) := by
  constructor <;> rfl

/-- C8: RFC7518 raw decoding succeeds exactly on signatures of length
twice the curve order's byte count, splitting them into two equal
big-endian halves r and s; any other length (one short included) is
rejected with `CRYPT_INVALID_PACKET`. -/
theorem rfc7518_decode_rule {P : Type} (dec : SigDecoders P) (key : EccKey P)
    (sig : List Nat) :
    (sig.length = 2 * orderBytes key.dp.order →
      decodeRS dec key .rfc7518 sig
        = .ok (beVal (sig.take (orderBytes key.dp.order)),
            beVal ((sig.drop (orderBytes key.dp.order)).take (orderBytes key.dp.order)))) ∧
    (sig.length ≠ 2 * orderBytes key.dp.order →
      decodeRS dec key .rfc7518 sig = .error .invalidPacket) := by
  constructor
  · intro hlen
    simp [decodeRS, hlen]
  · intro hlen
    simp [decodeRS, hlen]

/-- C5: `ssh_decode_rsa` reads six big integers in the fixed order
N, e, d, qP, q, p, and every accepted key satisfies the CRT identities
`dP = d mod (p-1)` and `dQ = d mod (q-1)`. -/
theorem ssh_decode_rsa_rule :
    (∀ (l : List Nat) (k : RsaKey) (rest : List Nat),
      ssh_decode_rsa l = some (k, rest) →
      k.dP = k.d % (k.p - 1) ∧ k.dQ = k.d % (k.q - 1)) ∧
    (∀ (l r1 r2 r3 r4 r5 r6 : List Nat) (vN ve vd vqP vq vp : Nat),
      decodeMpint l = some (vN, r1) → decodeMpint r1 = some (ve, r2) →
      decodeMpint r2 = some (vd, r3) → decodeMpint r3 = some (vqP, r4) →
      decodeMpint r4 = some (vq, r5) → decodeMpint r5 = some (vp, r6) →
      ssh_decode_rsa l
        = some (⟨vN, ve, vd, vqP, vq, vp, vd % (vp - 1), vd % (vq - 1)⟩, r6)) := by
  constructor
  · intro l k rest h
    unfold ssh_decode_rsa at h
    simp only [bind, Option.bind_eq_some, pure] at h
    obtain ⟨⟨vN, r1⟩, h1, ⟨⟨ve, r2⟩, h2, ⟨⟨vd, r3⟩, h3, ⟨⟨vqP, r4⟩, h4,
      ⟨⟨vq, r5⟩, h5, ⟨⟨vp, r6⟩, h6, hfin⟩⟩⟩⟩⟩⟩ := h
    simp only [Option.some.injEq, Prod.mk.injEq] at hfin
    obtain ⟨hk, hr⟩ := hfin
    rw [← hk]
    exact ⟨rfl, rfl⟩
  · intro l r1 r2 r3 r4 r5 r6 vN ve vd vqP vq vp h1 h2 h3 h4 h5 h6
    unfold ssh_decode_rsa
    rw [h1]
    simp only [bind, Option.some_bind]
    rw [h2]
    simp only [Option.some_bind]
    rw [h3]
    simp only [Option.some_bind]
    rw [h4]
    simp only [Option.some_bind]
    rw [h5]
    simp only [Option.some_bind]
    rw [h6]
    simp only [Option.some_bind]
    rfl

/-- C9 general form of the padding check, for an arbitrary starting pad
byte below 256. -/
theorem checkPaddingFrom_iff (p : Nat) (hp : p < 256) :
    ∀ l : List Nat, checkPaddingFrom p l = true ↔
      ∀ (k : Nat) (h : k < l.length), l.get ⟨k, h⟩ = (p + k) % 256 := by
  intro l
  induction l generalizing p with
  | nil => simp [checkPaddingFrom]
  | cons b t ih =>
    simp only [checkPaddingFrom, Bool.and_eq_true, beq_iff_eq]
    constructor
    · rintro ⟨hb, htail⟩ k hk
      cases k with
      | zero =>
        simp only [List.get]
        omega
      | succ k2 =>
        have hk2 : k2 < t.length := by simpa using hk
        have := ((ih ((p + 1) % 256) (Nat.mod_lt _ (by norm_num))).mp htail) k2 hk2
        simp only [List.get] at this ⊢
        rw [this]
        omega
    · intro hall
      have hb := hall 0 (by simp)
      simp only [List.get] at hb
      constructor
      · omega
      · rw [ih ((p + 1) % 256) (Nat.mod_lt _ (by norm_num))]
        intro k hk
        have := hall (k + 1) (by simpa using Nat.succ_lt_succ hk)
        simp only [List.get] at this
        rw [this]
        omega

/-- C9 (amended): the padding check accepts `01 02 03 04`, rejects
`01 02 04 03`, and in general accepts exactly the lists whose k-th entry
(0-based) is `(k+1) mod 256` — the pad counter is an `unsigned char` and
wraps, so byte 256 of the padding must be 0, not 256. -/
theorem check_padding_rule :
    check_padding [1, 2, 3, 4] = true ∧
    check_padding [1, 2, 4, 3] = false ∧
    ∀ l : List Nat, check_padding l = true ↔
      ∀ (k : Nat) (h : k < l.length), l.get ⟨k, h⟩ = (k + 1) % 256 := by
  refine ⟨rfl, rfl, ?_⟩
  intro l
  rw [check_padding, checkPaddingFrom_iff 1 (by norm_num) l]
  constructor <;> intro h k hk <;> rw [h k hk] <;> congr 1 <;> omega

set_option maxRecDepth 4000 in
/-- C9 counterexample: a 256-byte trailing sequence whose bytes are
`1, 2, ..., 255, 0` passes `check_padding` although its 256th byte is 0,
not 256 — the claim's "k-th trailing byte equals k" fails for k = 256,
where the code's `unsigned char` pad counter has wrapped to 0. -/
theorem check_padding_wrap_counterexample :
    check_padding ((List.range 256).map (fun i => (i + 1) % 256)) = true ∧
    ¬(∀ (k : Nat) (h : k < ((List.range 256).map (fun i => (i + 1) % 256)).length),
        ((List.range 256).map (fun i => (i + 1) % 256)).get ⟨k, h⟩ = k + 1) := by
  constructor
  · decide
  · intro hall
    have h255 := hall 255 (by decide)
    revert h255
    decide

/-- C6 (amended): for every container whose header decodes, the KDF name
recorded in the options is `none` or `bcrypt`, and the symmetric
decryption stage is skipped (leaves any payload untouched for every
decryptor) exactly when that KDF name is `none` — the cipher name plays
no role in the decision. -/
theorem decrypt_skip_rule (l : List Nat) (o : KdfOptions)
    (h : ssh_decode_header l = some o) :
    (o.name = ascii "none" ∨ o.name = ascii "bcrypt") ∧
    ((∀ (dec : List Nat → List Nat) (payload : List Nat),
        decrypt_stage dec o payload = payload) ↔ o.name = ascii "none") := by
  constructor
  · unfold ssh_decode_header at h
    dsimp only [] at h
    split at h
    · exact absurd h (by simp)
    · simp only [bind, Option.bind_eq_some] at h
      obtain ⟨⟨cn, r1⟩, h1, h⟩ := h
      obtain ⟨⟨kn, r2⟩, h2, h⟩ := h
      obtain ⟨⟨ko, r3⟩, h3, h⟩ := h
      obtain ⟨⟨nk, r4⟩, h4, h⟩ := h
      obtain ⟨⟨pk, r5⟩, h5, h⟩ := h
      split at h
      · exact absurd h (by simp)
      · simp only [Option.bind_eq_some] at h
        obtain ⟨cip, hc, h⟩ := h
        split at h
        · left
          simp only [pure, Option.some.injEq] at h
          rw [← h]
        · split at h
          · right
            simp only [bind, Option.bind_eq_some] at h
            obtain ⟨⟨salt, rr⟩, hs, h⟩ := h
            obtain ⟨⟨rounds, rr2⟩, hr2, h⟩ := h
            split at h
            · exact absurd h (by simp)
            · simp only [pure, Option.some.injEq] at h
              rw [← h]
          · exact absurd h (by simp)
  · constructor
    · intro hall
      by_contra hne
      have hx := hall (fun p => 0 :: p) []
      simp [decrypt_stage, main_skips, hne] at hx
    · intro hn dec payload
      simp [decrypt_stage, main_skips, hn]

/-- Witness header: cipher `aes256-cbc`, KDF `none`, one key, empty
public-key blob. -/
def hdrEx : List Nat :=
  ascii "openssh-key-v1" ++ [0] ++ [0, 0, 0, 10] ++ ascii "aes256-cbc"
    ++ [0, 0, 0, 4] ++ ascii "none" ++ [0, 0, 0, 0] ++ [0, 0, 0, 1] ++ [0, 0, 0, 0]

/-- The options produced for `hdrEx`. -/
def hdrOptsEx : KdfOptions :=
  ⟨ascii "none", ⟨ascii "aes256-cbc", ascii "aes", 32, .cbc⟩, [], 0⟩

/-- C6 counterexample: a container whose cipher is `aes256-cbc` (not
`none`) but whose KDF name is `none` decodes successfully, and `main`
skips the decryption stage — so the skip decision is NOT "cipher is
none": it is taken on the KDF name. -/
theorem decrypt_skip_counterexample :
    ssh_decode_header hdrEx = some hdrOptsEx ∧
    hdrOptsEx.cipher.name ≠ ascii "none" ∧
    main_skips hdrOptsEx = true ∧
    decrypt_stage (fun p => 0 :: p) hdrOptsEx [7] = [7] := by
  refine ⟨by decide, by decide, by decide, by decide⟩

/-! ### Witnesses -/

/-- Witness for C1 at a concrete run that verifies successfully. -/
theorem ecc_verify_equation_witness :
    decodeRS unitDecoders tinyKey .eth27 (sigRS 1 2) = .ok (1, 2) ∧
    invmod 2 5 = some 3 ∧
    (2 * 3 % 5 = 1 ∧ 3 < 5 ∧
      ecc_verify_hash_ex unitDecoders unitEngine1 (sigRS 1 2) [1] .eth27 tinyKey
        = (CryptStatus.ok, true)) := by
  refine ⟨rfl, rfl, ?_⟩
  have h := ecc_verify_equation unitDecoders unitEngine1 (sigRS 1 2) [1] .eth27 tinyKey
    1 2 3 () rfl (by decide) (by decide) (by decide) (by decide) rfl rfl
  exact ⟨h.1, h.2.1, h.2.2.trans rfl⟩

/-- Witness for C2 exercising all four parts of the amended rule. -/
theorem eth27_decode_rule_witness :
    decodeRS unitDecoders p256Key .eth27 (sigRS 1 2) = .error .error ∧
    decodeRS unitDecoders tinyKey .eth27 [1, 2] = .error .invalidPacket ∧
    decodeRS unitDecoders tinyKey .eth27 (sigRS 1 2) = .ok (1, 2) ∧
    decodeRS unitDecoders tinyKey .eth27 (List.replicate 64 0 ++ [27])
      = decodeRS unitDecoders tinyKey .eth27 (List.replicate 64 0 ++ [99]) := by
  refine ⟨(eth27_decode_rule unitDecoders p256Key (sigRS 1 2)).1 (by decide),
    (eth27_decode_rule unitDecoders tinyKey [1, 2]).2.1 (by decide) (by decide),
    ?_,
    (eth27_decode_rule unitDecoders tinyKey []).2.2.2 (List.replicate 64 0) 27 99 (by decide)⟩
  have h := (eth27_decode_rule unitDecoders tinyKey (sigRS 1 2)).2.2.1 (by decide) (by decide)
  exact h.trans rfl

/-- Witness for C3 at a concrete run whose final comparison fails. -/
theorem ecc_verify_invalid_is_ok_witness :
    decodeRS unitDecoders tinyKey .eth27 (sigRS 1 2) = .ok (1, 2) ∧
    ecc_verify_hash_ex unitDecoders unitEngine2 (sigRS 1 2) [1] .eth27 tinyKey
      = (CryptStatus.ok, false) :=
  ⟨rfl, ecc_verify_invalid_is_ok unitDecoders unitEngine2 (sigRS 1 2) [1] .eth27 tinyKey
    1 2 3 () rfl (by decide) (by decide) (by decide) (by decide) rfl rfl (by decide)⟩

/-- Witness for C4 on a two-byte digest and an 11-bit order, exercising
the cross-byte shift branch: `0x8142 >> 5 = 1034`. -/
theorem hashReduce_rule_witness :
    (∀ b ∈ [129, 66], b < 256) ∧
    ((bitLen 1024 > 2 * 8 → hashReduce [129, 66] 1024 = beVal [129, 66]) ∧
     (bitLen 1024 ≤ 2 * 8 → bitLen 1024 % 8 = 0 →
       hashReduce [129, 66] 1024 = beVal (List.take (bitLen 1024 / 8) [129, 66])) ∧
     (bitLen 1024 ≤ 2 * 8 → bitLen 1024 % 8 ≠ 0 →
       hashReduce [129, 66] 1024
         = beVal (List.take ((bitLen 1024 + 7) / 8) [129, 66]) / 2 ^ (8 - bitLen 1024 % 8))) := by
  have h := hashReduce_rule [129, 66] 1024 (by decide)
  exact ⟨by decide, by simpa using h⟩

/-- Concrete six-mpint byte stream for the C5 witness:
N=35, e=3, d=7, qP=2, q=3, p=5. -/
def rsaBytes : List Nat :=
  [0, 0, 0, 1, 35] ++ [0, 0, 0, 1, 3] ++ [0, 0, 0, 1, 7]
    ++ [0, 0, 0, 1, 2] ++ [0, 0, 0, 1, 3] ++ [0, 0, 0, 1, 5]

/-- Witness for C5: the accepted key carries the fields in order and its
CRT exponents are `7 mod 4 = 3` and `7 mod 2 = 1`. -/
theorem ssh_decode_rsa_rule_witness :
    ssh_decode_rsa rsaBytes = some (⟨35, 3, 7, 2, 3, 5, 3, 1⟩, []) ∧
    (3 : Nat) = 7 % (5 - 1) ∧ (1 : Nat) = 7 % (3 - 1) := by
  have h := ssh_decode_rsa_rule.2 rsaBytes _ _ _ _ _ [] 35 3 7 2 3 5
    rfl rfl rfl rfl rfl rfl
  refine ⟨h, ?_⟩
  have h2 := ssh_decode_rsa_rule.1 rsaBytes ⟨35, 3, 7, 2, 3, 5, 3, 1⟩ [] h
  exact ⟨h2.1, h2.2⟩

/-- Witness for C6 at the concrete header `hdrEx`. -/
theorem decrypt_skip_rule_witness :
    ssh_decode_header hdrEx = some hdrOptsEx ∧
    (hdrOptsEx.name = ascii "none" ∨ hdrOptsEx.name = ascii "bcrypt") ∧
    decrypt_stage (fun p => 0 :: p) hdrOptsEx [5] = [5] := by
  refine ⟨by decide, (decrypt_skip_rule hdrEx hdrOptsEx (by decide)).1, ?_⟩
  exact (decrypt_skip_rule hdrEx hdrOptsEx (by decide)).2.mpr (by decide)
    (fun p => 0 :: p) [5]

/-- Witness for C7 at a decoded pair with r = 0. -/
theorem ecc_verify_range_check_witness :
    decodeRS unitDecoders tinyKey .eth27 (sigRS 0 2) = .ok (0, 2) ∧
    ecc_verify_hash_ex unitDecoders unitEngine1 (sigRS 0 2) [1] .eth27 tinyKey
      = (CryptStatus.invalidPacket, false) :=
  ⟨rfl, ecc_verify_range_check unitDecoders (sigRS 0 2) [1] .eth27 tinyKey 0 2
    rfl (by decide) unitEngine1⟩

/-- Witness for C8 on the order-5 key (order byte count 1): length 2 is
accepted and split, length 1 (one short) is rejected. -/
theorem rfc7518_decode_rule_witness :
    decodeRS unitDecoders tinyKey .rfc7518 [3, 4] = .ok (3, 4) ∧
    decodeRS unitDecoders tinyKey .rfc7518 [3] = .error .invalidPacket := by
  constructor
  · have h := (rfc7518_decode_rule unitDecoders tinyKey [3, 4]).1 (by decide)
    exact h.trans rfl
  · exact (rfc7518_decode_rule unitDecoders tinyKey [3]).2 (by decide)

/-- Witness for C9 applying the amended rule in both directions at a
concrete list. -/
theorem check_padding_rule_witness :
    check_padding [1, 2, 3] = true ∧
    [1, 2, 3].get ⟨1, by norm_num⟩ = (1 + 1) % 256 :=
  ⟨(check_padding_rule.2.2 [1, 2, 3]).mpr (by decide),
   (check_padding_rule.2.2 [1, 2, 3]).mp (by decide) 1 (by norm_num)⟩

/-- Witness for C10 at a run that sets the validity flag. -/
theorem ecc_verify_flag_implies_ok_witness :
    (ecc_verify_hash_ex unitDecoders unitEngine1 (sigRS 1 2) [1] .eth27 tinyKey).2 = true ∧
    (ecc_verify_hash_ex unitDecoders unitEngine1 (sigRS 1 2) [1] .eth27 tinyKey).1
      = CryptStatus.ok :=
  ⟨by decide,
   ecc_verify_flag_implies_ok unitDecoders unitEngine1 (sigRS 1 2) [1] .eth27 tinyKey
     (by decide)⟩
